import Mathlib

/-!
The viewer `slam2d_viewer`: pose glyphs, covariance ellipses and the frame traversal.

Shallow embedding of `g2o/examples/slam2d/slam2d_viewer.cpp`.

* The arithmetic of `drawCov` is that of C `double`s. A finite `double` is the real number it
  holds, together with the sign of a zero (`Double`); every operation computes the exact result
  and rounds it once with the rounding `fl` of the format, a parameter of the definitions.
  `binary64` is the rounding of IEEE 754 doubles, to nearest with ties to even; `id` is
  arithmetic without rounding. Overflow to an infinity is not modelled.
  Each operation rounds on its own (no fused multiply-add). The sign of a zero is kept where the
  code can observe it, in the two arguments of `atan2`; the angle `atan2` returns is the exact
  one.
* NaN is `none`: a value that may be NaN is an `Option ℝ`. The only source of a NaN here is the
  square root of a negative number, and arithmetic on a NaN gives a NaN (`Option.map`).
* The coordinates of `drawSE2` and the arguments of the OpenGL calls are real numbers; their
  rounding to `double` and `float` is not modelled.
* The calls into OpenGL and into `draw_helpers.h` are recorded, in order, in a list of `GLCall`;
  every drawing routine takes the calls made so far and returns them with its own appended.
-/

namespace g2o

/-! ## The arithmetic of `double` -/

/-- Rounding of a real to an integer, to nearest, a tie going to the even neighbour. -/
noncomputable def roundHalfEven (q : ℝ) : ℤ :=
  if Int.fract q < 1 / 2 then ⌊q⌋
  else if 1 / 2 < Int.fract q then ⌊q⌋ + 1
  else if Even ⌊q⌋ then ⌊q⌋ else ⌊q⌋ + 1

/-- The exponent of the binade of `x` in the IEEE 754 binary64 format: `⌊log₂ |x|⌋`, and the
least normal exponent `-1022` for a subnormal `x`. -/
noncomputable def binary64.expo (x : ℝ) : ℤ :=
  max (Int.log 2 |x|) (-1022)

/-- The spacing of the binary64 numbers around `x`: 52 bits below the exponent. -/
noncomputable def binary64.ulp (x : ℝ) : ℝ :=
  (2 : ℝ) ^ (binary64.expo x - 52)

/-- The rounding of IEEE 754 binary64 arithmetic, to nearest with ties to even: the multiple
of the spacing nearest to `x`. -/
noncomputable def binary64 (x : ℝ) : ℝ :=
  (roundHalfEven (x / binary64.ulp x) : ℝ) * binary64.ulp x

/-- A finite `double`: the zero with the sign bit set, or the real number it holds (`num 0`
is the zero with the sign bit clear). -/
inductive Double where
  | negZero
  | num (x : ℝ)

/-- The real number a `double` holds. -/
def Double.val : Double → ℝ
  | .negZero => 0
  | .num x => x

/-- The sign bit of a `double`. -/
noncomputable def Double.signbit : Double → Bool
  | .negZero => true
  | .num x => decide (x < 0)

/-- The product `x * y` of two `double`s: the rounded product, and when that is a zero its
sign is the exclusive or of the signs of the factors. -/
noncomputable def Double.mul (fl : ℝ → ℝ) (x y : Double) : Double :=
  if fl (x.val * y.val) ≠ 0 then .num (fl (x.val * y.val))
  else if x.signbit != y.signbit then .negZero else .num 0

/-- The difference `x - y` of two `double`s: the rounded difference; when that is a zero it
has the sign of the exact difference, and an exact zero is `+0` except for `(-0) - (+0)`. -/
noncomputable def Double.sub (fl : ℝ → ℝ) (x y : Double) : Double :=
  if fl (x.val - y.val) ≠ 0 then .num (fl (x.val - y.val))
  else if x.val - y.val < 0 then .negZero
  else if 0 < x.val - y.val then .num 0
  else match x, y with
    | .negZero, .num _ => .negZero
    | _, _ => .num 0

/-! ## `<cmath>` -/

/-- The `sqrt` of `<cmath>`: the rounded square root of a non-negative argument, and a domain
error (NaN, here `none`) on a negative one. -/
noncomputable def sqrt (fl : ℝ → ℝ) (x : ℝ) : Option ℝ :=
  if 0 ≤ x then some (fl (Real.sqrt x)) else none

/-- The `atan2` of `<cmath>` on finite arguments: the angle in `[-π, π]` of the point `(x, y)`.
When `y` is a zero the result is a zero for `x` positive or `+0`, and `π` with the sign of `y`
for `x` negative or `-0`. -/
noncomputable def atan2 (y x : Double) : ℝ :=
  if y.val ≠ 0 then Complex.arg ⟨x.val, y.val⟩
  else match x with
    | .num r =>
      if 0 ≤ r then 0
      else match y with
        | .negZero => -Real.pi
        | .num _ => Real.pi
    | .negZero =>
      match y with
      | .negZero => -Real.pi
      | .num _ => Real.pi

/-! ## The eigenvalue computation of `drawCov` (source lines 76 to 84)

Each local variable of `drawCov` is a function of the three entries `a = cov(0,0)`,
`b = cov(0,1)`, `d = cov(1,1)` that the routine reads. -/

/-- The local `D` of `drawCov`, the determinant: `double D = a*d - b*b;` -/
def drawCov.D (fl : ℝ → ℝ) (a b d : Double) : ℝ :=
  fl (fl (a.val * d.val) - fl (b.val * b.val))

/-- The local `T` of `drawCov`, the trace: `double T = a+d;` -/
def drawCov.T (fl : ℝ → ℝ) (a d : Double) : ℝ :=
  fl (a.val + d.val)

/-- The argument `0.25*(T*T) - D` of the square root of line 78, with no clamp. -/
def drawCov.radicand (fl : ℝ → ℝ) (a b d : Double) : ℝ :=
  fl (fl (0.25 * fl (drawCov.T fl a d * drawCov.T fl a d)) - drawCov.D fl a b d)

/-- The local `h` of `drawCov`: `double h = sqrt(0.25*(T*T) - D);` -/
noncomputable def drawCov.h (fl : ℝ → ℝ) (a b d : Double) : Option ℝ :=
  sqrt fl (drawCov.radicand fl a b d)

/-- The local `lambda1` of `drawCov`: `double lambda1 = 0.5*T + h;` -/
noncomputable def drawCov.lambda1 (fl : ℝ → ℝ) (a b d : Double) : Option ℝ :=
  (drawCov.h fl a b d).map (fun h => fl (fl (0.5 * drawCov.T fl a d) + h))

/-- The local `lambda2` of `drawCov`: `double lambda2 = 0.5*T - h;` -/
noncomputable def drawCov.lambda2 (fl : ℝ → ℝ) (a b d : Double) : Option ℝ :=
  (drawCov.h fl a b d).map (fun h => fl (fl (0.5 * drawCov.T fl a d) - h))

/-- The local `theta` of `drawCov`: `double theta = 0.5 * atan2(2.0 * b, a - d);` -/
noncomputable def drawCov.theta (fl : ℝ → ℝ) (a b d : Double) : ℝ :=
  fl (0.5 * atan2 (Double.mul fl (.num 2.0) b) (Double.sub fl a d))

/-- The local `majorAxis` of `drawCov`: `double majorAxis = 3.0 * sqrt(lambda1);`, with no
guard on the sign of `lambda1`. -/
noncomputable def drawCov.majorAxis (fl : ℝ → ℝ) (a b d : Double) : Option ℝ :=
  ((drawCov.lambda1 fl a b d).bind (sqrt fl)).map (fun s => fl (3.0 * s))

/-- The local `minorAxis` of `drawCov`: `double minorAxis = 3.0 * sqrt(lambda2);`, with no
guard on the sign of `lambda2`. -/
noncomputable def drawCov.minorAxis (fl : ℝ → ℝ) (a b d : Double) : Option ℝ :=
  ((drawCov.lambda2 fl a b d).bind (sqrt fl)).map (fun s => fl (3.0 * s))

/-- The `h` of the specification, written from its words: `h = sqrt(max(0, 0.25·T² − D))` with
`D = a·d − b²` and `T = a + d`, the radicand clamped at zero before the root is taken; in the
same arithmetic as the code. -/
noncomputable def specClampedH (fl : ℝ → ℝ) (a b d : Double) : Option ℝ :=
  let D := fl (fl (a.val * d.val) - fl (b.val ^ 2))
  let T := fl (a.val + d.val)
  sqrt fl (max 0 (fl (fl (0.25 * fl (T ^ 2)) - D)))

/-- The value of `0.25·T² − D` in arithmetic without rounding. -/
def exactRadicand (a b d : ℝ) : ℝ :=
  0.25 * ((a + d) * (a + d)) - (a * d - b * b)

/-- The run of lines 76 to 80 on `(a, b, d)` rounds nowhere: each of its eleven operations has
an exact result that the rounding `fl` leaves as it is. -/
def drawCov.NoRounding (fl : ℝ → ℝ) (a b d : Double) : Prop :=
  fl (a.val * d.val) = a.val * d.val ∧
  fl (b.val * b.val) = b.val * b.val ∧
  fl (a.val * d.val - b.val * b.val) = a.val * d.val - b.val * b.val ∧
  fl (a.val + d.val) = a.val + d.val ∧
  fl ((a.val + d.val) * (a.val + d.val)) = (a.val + d.val) * (a.val + d.val) ∧
  fl (0.25 * ((a.val + d.val) * (a.val + d.val))) = 0.25 * ((a.val + d.val) * (a.val + d.val)) ∧
  fl (exactRadicand a.val b.val d.val) = exactRadicand a.val b.val d.val ∧
  fl (Real.sqrt (exactRadicand a.val b.val d.val)) =
    Real.sqrt (exactRadicand a.val b.val d.val) ∧
  fl (0.5 * (a.val + d.val)) = 0.5 * (a.val + d.val) ∧
  fl (0.5 * (a.val + d.val) + Real.sqrt (exactRadicand a.val b.val d.val)) =
    0.5 * (a.val + d.val) + Real.sqrt (exactRadicand a.val b.val d.val) ∧
  fl (0.5 * (a.val + d.val) - Real.sqrt (exactRadicand a.val b.val d.val)) =
    0.5 * (a.val + d.val) - Real.sqrt (exactRadicand a.val b.val d.val)

/-! ## Poses and points -/

/-- An `Eigen::Vector2d`: the pair of its coordinates, `p[0]` (or `p.x()`) and `p[1]`
(or `p.y()`). -/
abbrev Vector2d := ℝ × ℝ

/-- An `SE2` pose, the triple `(x, y, θ)` of the data model. -/
structure SE2 where
  x : ℝ
  y : ℝ
  theta : ℝ

/-- The translation part of a pose, `SE2::translation()`. -/
def SE2.translation (pose : SE2) : Vector2d :=
  (pose.x, pose.y)

/-- Modelled from the spec: `SE2::operator*(const Vector2d&)` lives in `se2.h`, which is not
among the sources. The spec's data model gives it: applying a pose to a local point yields
`(x + cosθ·px − sinθ·py, y + sinθ·px + cosθ·py)`. -/
noncomputable def SE2.mul (pose : SE2) (p : Vector2d) : Vector2d :=
  (pose.x + Real.cos pose.theta * p.1 - Real.sin pose.theta * p.2,
   pose.y + Real.sin pose.theta * p.1 + Real.cos pose.theta * p.2)

/-! ## The graph snapshot -/

/-- A `VertexSE2`: a pose estimate and its uncertainty, of which `drawCov` reads the entries
`(0,0)`, `(0,1)` and `(1,1)`. -/
structure VertexSE2 where
  estimate : SE2
  uncertainty : Matrix (Fin 2) (Fin 2) Double

/-- A `VertexPointXY`: a landmark position. -/
structure VertexPointXY where
  estimate : Vector2d

/-- The dynamic type of a vertex of the graph, as far as the viewer tells them apart: a pose,
a landmark, or any other kind of vertex. -/
inductive Vertex where
  | se2 (v : VertexSE2)
  | pointXY (v : VertexPointXY)
  | other

/-- The cast `dynamic_cast<VertexSE2*>(it->second)`: null (`none`) unless the vertex is a
pose. -/
def Vertex.toVertexSE2 : Vertex → Option VertexSE2
  | .se2 v => some v
  | _ => none

/-- The cast `dynamic_cast<VertexPointXY*>(it->second)`: null (`none`) unless the vertex is a
landmark. -/
def Vertex.toVertexPointXY : Vertex → Option VertexPointXY
  | .pointXY v => some v
  | _ => none

/-- Whether the viewer draws a vertex at all: it is a pose or a landmark. -/
def Vertex.recognized : Vertex → Bool
  | .other => false
  | _ => true

/-- The `SparseOptimizer::VertexIDMap`, as the sequence of its `(id, vertex)` entries in the
order in which an iterator from `begin()` to `end()` visits them. -/
abbrev VertexIDMap := List (ℤ × Vertex)

/-- The part of `SparseOptimizer` the viewer reads: `vertices()`. -/
structure SparseOptimizer where
  vertices : VertexIDMap

/-! ## The calls into the graphics backend -/

/-- The primitive modes passed to `glBegin`. -/
inductive GLenum where
  | GL_TRIANGLES
  | GL_POINTS
  deriving DecidableEq

/-- One call into OpenGL or into `draw_helpers.h`, with its arguments. The arguments of
`glScalef` may be NaN (`none`), since they come out of unguarded square roots. -/
inductive GLCall where
  | glColor4f (r g b a : ℝ)
  | glBegin (mode : GLenum)
  | glEnd
  | glVertex3f (x y z : ℝ)
  | glPointSize (size : ℝ)
  | glPushMatrix
  | glPopMatrix
  | glTranslatef (x y z : ℝ)
  | glRotatef (angle x y z : ℝ)
  | glScalef (x y z : Option ℝ)
  | drawDisk (radius : ℝ)
  | drawCircle (radius : ℝ)

/-! ## `drawSE2` (source lines 46 to 61) -/

/-- The constant `len` of `drawSE2`. -/
def drawSE2.len : ℝ := 0.2

/-- The constant `p1` of `drawSE2`. -/
def drawSE2.p1 : Vector2d := (0.75 * drawSE2.len, 0)

/-- The constant `p2` of `drawSE2`. -/
def drawSE2.p2 : Vector2d := (-0.25 * drawSE2.len, 0.5 * drawSE2.len)

/-- The constant `p3` of `drawSE2`. -/
def drawSE2.p3 : Vector2d := (-0.25 * drawSE2.len, -0.5 * drawSE2.len)

/-- The routine `drawSE2`: three `glVertex3f` calls, one per corner of the pose triangle. -/
noncomputable def drawSE2 (v : VertexSE2) (gl : List GLCall) : List GLCall :=
  let pose := v.estimate
  let aux := pose.mul drawSE2.p1
  let gl := gl ++ [GLCall.glVertex3f aux.1 aux.2 0]
  let aux := pose.mul drawSE2.p2
  let gl := gl ++ [GLCall.glVertex3f aux.1 aux.2 0]
  let aux := pose.mul drawSE2.p3
  gl ++ [GLCall.glVertex3f aux.1 aux.2 0]

/-! ## `drawCov` (source lines 63 to 94) -/

/-- The constant `scalingFactor` of `drawCov`. -/
def drawCov.scalingFactor : ℝ := 1

/-- The routine `drawCov`. The macro `RAD2DEG` comes from a header that is not among the
sources and is a parameter. -/
noncomputable def drawCov (fl : ℝ → ℝ) (RAD2DEG : ℝ → ℝ) (p : Vector2d)
    (cov : Matrix (Fin 2) (Fin 2) Double) (gl : List GLCall) : List GLCall :=
  let gl := gl ++ [GLCall.glPushMatrix]
  let gl := gl ++ [GLCall.glTranslatef p.1 p.2 0]
  let a := cov 0 0
  let b := cov 0 1
  let d := cov 1 1
  let theta := drawCov.theta fl a b d
  let majorAxis := drawCov.majorAxis fl a b d
  let minorAxis := drawCov.minorAxis fl a b d
  let gl := gl ++ [GLCall.glRotatef (RAD2DEG theta) 0 0 1]
  let gl := gl ++ [GLCall.glScalef (majorAxis.map (fun m => fl (m * drawCov.scalingFactor)))
    (minorAxis.map (fun m => fl (m * drawCov.scalingFactor))) (some 1)]
  let gl := gl ++ [GLCall.glColor4f 1.0 1 0 0.4]
  let gl := gl ++ [GLCall.drawDisk 1]
  let gl := gl ++ [GLCall.glColor4f 0 0 0 1.0]
  let gl := gl ++ [GLCall.drawCircle 1]
  gl ++ [GLCall.glPopMatrix]

/-! ## `Slam2DViewer::draw` (source lines 108 to 144) -/

/-- The members of `Slam2DViewer` that `draw` reads: the pointer `graph` (null is `none`) and
the flag `drawCovariance`. -/
structure Slam2DViewer where
  graph : Option SparseOptimizer
  drawCovariance : Bool

/-- The body of the first loop of `draw`: a pose is drawn by `drawSE2`, anything else is
passed over. -/
noncomputable def Slam2DViewer.drawPoseStep (gl : List GLCall) (it : ℤ × Vertex) :
    List GLCall :=
  match it.2.toVertexSE2 with
  | some v => drawSE2 v gl
  | none => gl

/-- The body of the second loop of `draw`: a landmark is one vertex at its estimate, anything
else is passed over. -/
def Slam2DViewer.drawPointStep (gl : List GLCall) (it : ℤ × Vertex) : List GLCall :=
  match it.2.toVertexPointXY with
  | some v => gl ++ [GLCall.glVertex3f v.estimate.1 v.estimate.2 0]
  | none => gl

/-- The body of the third loop of `draw`: a pose gets its covariance ellipse from `drawCov`,
anything else is passed over. -/
noncomputable def Slam2DViewer.drawCovStep (fl : ℝ → ℝ) (RAD2DEG : ℝ → ℝ) (gl : List GLCall)
    (it : ℤ × Vertex) : List GLCall :=
  match it.2.toVertexSE2 with
  | some v => drawCov fl RAD2DEG v.estimate.translation v.uncertainty gl
  | none => gl

/-- The method `Slam2DViewer::draw`: from the viewer and the calls made so far to the viewer
after the call and the calls made by then. No statement of the method assigns to a member or
to the graph. -/
noncomputable def Slam2DViewer.draw (fl : ℝ → ℝ) (RAD2DEG : ℝ → ℝ) (self : Slam2DViewer)
    (gl : List GLCall) : Slam2DViewer × List GLCall :=
  match self.graph with
  | none => (self, gl)
  | some graph =>
    let gl := gl ++ [GLCall.glColor4f 0.00 0.67 1.00 1]
    let gl := gl ++ [GLCall.glBegin GLenum.GL_TRIANGLES]
    let gl := graph.vertices.foldl Slam2DViewer.drawPoseStep gl
    let gl := gl ++ [GLCall.glEnd]
    let gl := gl ++ [GLCall.glColor4f 1.00 0.67 0.00 1]
    let gl := gl ++ [GLCall.glPointSize 2]
    let gl := gl ++ [GLCall.glBegin GLenum.GL_POINTS]
    let gl := graph.vertices.foldl Slam2DViewer.drawPointStep gl
    let gl := gl ++ [GLCall.glEnd]
    let gl := gl ++ [GLCall.glPointSize 1]
    let gl := if self.drawCovariance then
        graph.vertices.foldl (Slam2DViewer.drawCovStep fl RAD2DEG) gl
      else gl
    (self, gl)

/-- Whether a call is a `drawDisk`, the filled disk that every ellipse glyph has once. -/
def GLCall.isDrawDisk : GLCall → Bool
  | .drawDisk _ => true
  | _ => false

/-! ## The rounding `binary64`: monotone, odd, and the identity on the numbers of the format -/

theorem floor_le_roundHalfEven (q : ℝ) : ⌊q⌋ ≤ roundHalfEven q := by
  unfold roundHalfEven
  split_ifs <;> omega

theorem roundHalfEven_le (q : ℝ) : roundHalfEven q ≤ ⌊q⌋ + 1 := by
  unfold roundHalfEven
  split_ifs <;> omega

theorem roundHalfEven_intCast (n : ℤ) : roundHalfEven (n : ℝ) = n := by
  simp [roundHalfEven]

theorem roundHalfEven_mono {q r : ℝ} (h : q ≤ r) : roundHalfEven q ≤ roundHalfEven r := by
  rcases lt_or_eq_of_le (Int.floor_mono h) with hf | hf
  · calc roundHalfEven q ≤ ⌊q⌋ + 1 := roundHalfEven_le q
      _ ≤ ⌊r⌋ := hf
      _ ≤ roundHalfEven r := floor_le_roundHalfEven r
  · have hfr : Int.fract q ≤ Int.fract r := by
      rw [← Int.self_sub_floor, ← Int.self_sub_floor, hf]
      linarith
    unfold roundHalfEven
    rw [hf]
    split_ifs <;> first | omega | (exfalso; linarith)

theorem roundHalfEven_neg (q : ℝ) : roundHalfEven (-q) = -roundHalfEven q := by
  by_cases h0 : Int.fract q = 0
  · have hq : q = (⌊q⌋ : ℝ) := by
      have := Int.floor_add_fract q
      rw [h0] at this
      linarith
    rw [hq, ← Int.cast_neg, roundHalfEven_intCast, roundHalfEven_intCast]
  · have hfn : Int.fract (-q) = 1 - Int.fract q := Int.fract_neg h0
    have hfl : ⌊-q⌋ = -⌊q⌋ - 1 := by
      rw [Int.floor_eq_iff]
      have h1 := Int.floor_add_fract q
      have h2 := Int.fract_lt_one q
      have h3 : 0 < Int.fract q := lt_of_le_of_ne (Int.fract_nonneg q) (Ne.symm h0)
      push_cast
      constructor <;> linarith
    unfold roundHalfEven
    rw [hfn, hfl]
    have hev : Even (-⌊q⌋ - 1) ↔ ¬ Even ⌊q⌋ := by
      rw [Int.even_sub, even_neg]
      simp
    split_ifs <;> first | omega | (exfalso; linarith) | (exfalso; tauto)

theorem binary64.ulp_pos (x : ℝ) : 0 < binary64.ulp x := by
  unfold binary64.ulp
  positivity

theorem binary64.expo_neg (x : ℝ) : binary64.expo (-x) = binary64.expo x := by
  simp [binary64.expo]

theorem binary64.ulp_neg (x : ℝ) : binary64.ulp (-x) = binary64.ulp x := by
  simp [binary64.ulp, binary64.expo_neg]

theorem binary64_zero : binary64 0 = 0 := by
  simp [binary64, roundHalfEven]

theorem binary64_neg (x : ℝ) : binary64 (-x) = -binary64 x := by
  unfold binary64
  rw [binary64.ulp_neg, neg_div, roundHalfEven_neg]
  push_cast
  ring

theorem binary64_nonneg {x : ℝ} (hx : 0 ≤ x) : 0 ≤ binary64 x := by
  unfold binary64
  have hu := binary64.ulp_pos x
  have hq : (0 : ℝ) ≤ x / binary64.ulp x := div_nonneg hx hu.le
  have h0 : (0 : ℤ) ≤ roundHalfEven (x / binary64.ulp x) :=
    le_trans (Int.floor_nonneg.mpr hq) (floor_le_roundHalfEven _)
  have : (0 : ℝ) ≤ (roundHalfEven (x / binary64.ulp x) : ℝ) := by exact_mod_cast h0
  positivity

theorem binary64.expo_mono {x y : ℝ} (hx : 0 < x) (h : x ≤ y) :
    binary64.expo x ≤ binary64.expo y := by
  unfold binary64.expo
  rw [abs_of_pos hx, abs_of_pos (lt_of_lt_of_le hx h)]
  exact max_le_max (Int.log_mono_right hx h) le_rfl

theorem binary64_le_zpow {x : ℝ} (hx : 0 < x) :
    binary64 x ≤ (2 : ℝ) ^ (binary64.expo x + 1) := by
  have hu := binary64.ulp_pos x
  have hlt : x < (2 : ℝ) ^ (binary64.expo x + 1) := by
    have h1 : x < ((2 : ℕ) : ℝ) ^ (Int.log 2 x + 1) := Int.lt_zpow_succ_log_self (by norm_num) x
    have h2 : Int.log 2 x + 1 ≤ binary64.expo x + 1 := by
      unfold binary64.expo
      rw [abs_of_pos hx]
      have := le_max_left (Int.log 2 x) (-1022)
      omega
    calc x < (2 : ℝ) ^ (Int.log 2 x + 1) := by exact_mod_cast h1
      _ ≤ (2 : ℝ) ^ (binary64.expo x + 1) := zpow_le_zpow_right₀ (by norm_num) h2
  have hsplit : (2 : ℝ) ^ (binary64.expo x + 1) = (2 : ℝ) ^ (53 : ℤ) * binary64.ulp x := by
    unfold binary64.ulp
    rw [← zpow_add₀ (by norm_num : (2 : ℝ) ≠ 0)]
    congr 1
    ring
  have hq : x / binary64.ulp x ≤ ((2 ^ 53 : ℤ) : ℝ) := by
    rw [div_le_iff₀ hu]
    have : (((2 : ℤ) ^ 53 : ℤ) : ℝ) = (2 : ℝ) ^ (53 : ℤ) := by norm_num
    rw [this, ← hsplit]
    exact hlt.le
  have hr : roundHalfEven (x / binary64.ulp x) ≤ 2 ^ 53 := by
    have := roundHalfEven_mono hq
    rwa [roundHalfEven_intCast] at this
  have hr2 : (roundHalfEven (x / binary64.ulp x) : ℝ) ≤ (2 : ℝ) ^ (53 : ℤ) := by
    have : (roundHalfEven (x / binary64.ulp x) : ℝ) ≤ ((2 ^ 53 : ℤ) : ℝ) := by exact_mod_cast hr
    calc (roundHalfEven (x / binary64.ulp x) : ℝ) ≤ ((2 ^ 53 : ℤ) : ℝ) := this
      _ = (2 : ℝ) ^ (53 : ℤ) := by norm_num
  unfold binary64
  rw [hsplit]
  exact mul_le_mul_of_nonneg_right hr2 hu.le

theorem zpow_le_binary64 {y : ℝ} (hy : 0 < y) (he : -1022 < binary64.expo y) :
    (2 : ℝ) ^ binary64.expo y ≤ binary64 y := by
  have hu := binary64.ulp_pos y
  have hlog : binary64.expo y = Int.log 2 y := by
    unfold binary64.expo at he ⊢
    rw [abs_of_pos hy] at he ⊢
    rcases le_total (Int.log 2 y) (-1022) with h | h
    · rw [max_eq_right h] at he
      omega
    · exact max_eq_left h
  have hle : (2 : ℝ) ^ binary64.expo y ≤ y := by
    rw [hlog]
    have := Int.zpow_log_le_self (R := ℝ) (b := 2) (by norm_num) hy
    exact_mod_cast this
  have hsplit : (2 : ℝ) ^ binary64.expo y = (2 : ℝ) ^ (52 : ℤ) * binary64.ulp y := by
    unfold binary64.ulp
    rw [← zpow_add₀ (by norm_num : (2 : ℝ) ≠ 0)]
    congr 1
    ring
  have hq : ((2 ^ 52 : ℤ) : ℝ) ≤ y / binary64.ulp y := by
    rw [le_div_iff₀ hu]
    have : (((2 : ℤ) ^ 52 : ℤ) : ℝ) = (2 : ℝ) ^ (52 : ℤ) := by norm_num
    rw [this, ← hsplit]
    exact hle
  have hr : 2 ^ 52 ≤ roundHalfEven (y / binary64.ulp y) := by
    have := roundHalfEven_mono hq
    rwa [roundHalfEven_intCast] at this
  have hr2 : (2 : ℝ) ^ (52 : ℤ) ≤ (roundHalfEven (y / binary64.ulp y) : ℝ) := by
    have : ((2 ^ 52 : ℤ) : ℝ) ≤ (roundHalfEven (y / binary64.ulp y) : ℝ) := by exact_mod_cast hr
    calc (2 : ℝ) ^ (52 : ℤ) = ((2 ^ 52 : ℤ) : ℝ) := by norm_num
      _ ≤ _ := this
  rw [hsplit]
  unfold binary64
  exact mul_le_mul_of_nonneg_right hr2 hu.le

theorem binary64_mono_of_pos {x y : ℝ} (hx : 0 < x) (h : x ≤ y) : binary64 x ≤ binary64 y := by
  have hy : 0 < y := lt_of_lt_of_le hx h
  rcases lt_or_eq_of_le (binary64.expo_mono hx h) with he | he
  · calc binary64 x ≤ (2 : ℝ) ^ (binary64.expo x + 1) := binary64_le_zpow hx
      _ ≤ (2 : ℝ) ^ binary64.expo y := zpow_le_zpow_right₀ (by norm_num) he
      _ ≤ binary64 y := zpow_le_binary64 hy (by
          have : -1022 ≤ binary64.expo x := le_max_right _ _
          omega)
  · have hu : binary64.ulp x = binary64.ulp y := by
      unfold binary64.ulp
      rw [he]
    unfold binary64
    rw [hu]
    have hup := binary64.ulp_pos y
    have hq : x / binary64.ulp y ≤ y / binary64.ulp y := div_le_div_of_nonneg_right h hup.le
    have : (roundHalfEven (x / binary64.ulp y) : ℝ) ≤ (roundHalfEven (y / binary64.ulp y) : ℝ) := by
      exact_mod_cast roundHalfEven_mono hq
    exact mul_le_mul_of_nonneg_right this hup.le

theorem binary64_monotone : Monotone binary64 := by
  intro x y h
  rcases lt_trichotomy 0 x with hx | hx | hx
  · exact binary64_mono_of_pos hx h
  · subst hx
    rw [binary64_zero]
    exact binary64_nonneg h
  · rcases lt_or_le y 0 with hy | hy
    · have := binary64_mono_of_pos (x := -y) (y := -x) (by linarith) (by linarith)
      rw [binary64_neg, binary64_neg] at this
      linarith
    · have h1 : 0 ≤ binary64 (-x) := binary64_nonneg (by linarith)
      rw [binary64_neg] at h1
      have h2 := binary64_nonneg hy
      linarith

theorem binary64.expo_eq {x : ℝ} {e : ℤ} (he : -1022 ≤ e) (h1 : (2 : ℝ) ^ e ≤ |x|)
    (h2 : |x| < (2 : ℝ) ^ (e + 1)) : binary64.expo x = e := by
  have hpos : 0 < |x| := lt_of_lt_of_le (by positivity) h1
  have hl1 : e ≤ Int.log 2 |x| :=
    (Int.zpow_le_iff_le_log (b := 2) (by norm_num) hpos).mp (by exact_mod_cast h1)
  have hl2 : Int.log 2 |x| < e + 1 :=
    (Int.lt_zpow_iff_log_lt (b := 2) (by norm_num) hpos).mp (by exact_mod_cast h2)
  unfold binary64.expo
  rw [max_eq_left (by omega)]
  omega

/-- A positive number with a 53-bit significand in the binade of `2 ^ e` rounds to itself. -/
theorem binary64_of_exact {x : ℝ} (e n : ℤ) (he : -1022 ≤ e) (h1 : (2 : ℝ) ^ e ≤ x)
    (h2 : x < (2 : ℝ) ^ (e + 1)) (hn : x = (n : ℝ) * (2 : ℝ) ^ (e - 52)) : binary64 x = x := by
  have hx : 0 < x := lt_of_lt_of_le (by positivity) h1
  have hu : binary64.ulp x = (2 : ℝ) ^ (e - 52) := by
    unfold binary64.ulp
    rw [binary64.expo_eq he (by rwa [abs_of_pos hx]) (by rwa [abs_of_pos hx])]
  have hp : (0 : ℝ) < (2 : ℝ) ^ (e - 52) := by positivity
  have hq : x / (2 : ℝ) ^ (e - 52) = (n : ℝ) := by
    rw [div_eq_iff hp.ne']
    exact hn
  unfold binary64
  rw [hu, hq, roundHalfEven_intCast, ← hn]

/-- The negative of such a number rounds to itself too. -/
theorem binary64_of_exact_neg {x : ℝ} (e n : ℤ) (he : -1022 ≤ e) (h1 : (2 : ℝ) ^ e ≤ x)
    (h2 : x < (2 : ℝ) ^ (e + 1)) (hn : x = (n : ℝ) * (2 : ℝ) ^ (e - 52)) :
    binary64 (-x) = -x := by
  rw [binary64_neg, binary64_of_exact e n he h1 h2 hn]

/-- A positive number half way between two neighbours of the format rounds to the even one. -/
theorem binary64_of_tie_even {x : ℝ} (e f : ℤ) (he : -1022 ≤ e) (h1 : (2 : ℝ) ^ e ≤ x)
    (h2 : x < (2 : ℝ) ^ (e + 1)) (hf : Even f)
    (hn : x = ((f : ℝ) + 1 / 2) * (2 : ℝ) ^ (e - 52)) :
    binary64 x = (f : ℝ) * (2 : ℝ) ^ (e - 52) := by
  have hx : 0 < x := lt_of_lt_of_le (by positivity) h1
  have hu : binary64.ulp x = (2 : ℝ) ^ (e - 52) := by
    unfold binary64.ulp
    rw [binary64.expo_eq he (by rwa [abs_of_pos hx]) (by rwa [abs_of_pos hx])]
  have hp : (0 : ℝ) < (2 : ℝ) ^ (e - 52) := by positivity
  have hq : x / (2 : ℝ) ^ (e - 52) = (f : ℝ) + 1 / 2 := by
    rw [div_eq_iff hp.ne']
    exact hn
  have hfl : ⌊(f : ℝ) + 1 / 2⌋ = f := by
    rw [Int.floor_eq_iff]
    constructor <;> linarith
  have hfr : Int.fract ((f : ℝ) + 1 / 2) = 1 / 2 := by
    rw [← Int.self_sub_floor, hfl]
    ring
  have hr : roundHalfEven ((f : ℝ) + 1 / 2) = f := by
    unfold roundHalfEven
    rw [hfr, hfl]
    simp [hf]
  unfold binary64
  rw [hu, hq, hr]

/-! ## Numbers that `binary64` leaves as they are -/

theorem binary64_one : binary64 1 = 1 :=
  binary64_of_exact 0 (2 ^ 52) (by norm_num) (by norm_num) (by norm_num) (by norm_num)

theorem binary64_two : binary64 2 = 2 :=
  binary64_of_exact 1 (2 ^ 52) (by norm_num) (by norm_num) (by norm_num) (by norm_num)

theorem binary64_three : binary64 3 = 3 :=
  binary64_of_exact 1 (3 * 2 ^ 51) (by norm_num) (by norm_num) (by norm_num) (by norm_num)

theorem binary64_four : binary64 4 = 4 :=
  binary64_of_exact 2 (2 ^ 52) (by norm_num) (by norm_num) (by norm_num) (by norm_num)

theorem binary64_five : binary64 5 = 5 :=
  binary64_of_exact 2 (5 * 2 ^ 50) (by norm_num) (by norm_num) (by norm_num) (by norm_num)

theorem binary64_sixteen : binary64 16 = 16 :=
  binary64_of_exact 4 (2 ^ 52) (by norm_num) (by norm_num) (by norm_num) (by norm_num)

theorem binary64_twentyfive : binary64 25 = 25 :=
  binary64_of_exact 4 (25 * 2 ^ 48) (by norm_num) (by norm_num) (by norm_num) (by norm_num)

theorem binary64_three_halves : binary64 (3 / 2) = 3 / 2 :=
  binary64_of_exact 0 (3 * 2 ^ 51) (by norm_num) (by norm_num) (by norm_num) (by norm_num)

theorem binary64_five_halves : binary64 (5 / 2) = 5 / 2 :=
  binary64_of_exact 1 (5 * 2 ^ 50) (by norm_num) (by norm_num) (by norm_num) (by norm_num)

theorem binary64_nine_quarters : binary64 (9 / 4) = 9 / 4 :=
  binary64_of_exact 1 (9 * 2 ^ 49) (by norm_num) (by norm_num) (by norm_num) (by norm_num)

theorem binary64_twentyfive_quarters : binary64 (25 / 4) = 25 / 4 :=
  binary64_of_exact 2 (25 * 2 ^ 48) (by norm_num) (by norm_num) (by norm_num) (by norm_num)

theorem binary64_neg_one : binary64 (-1) = -1 := by
  rw [binary64_neg, binary64_one]

theorem binary64_neg_two : binary64 (-2) = -2 := by
  rw [binary64_neg, binary64_two]

theorem binary64_neg_three : binary64 (-3) = -3 := by
  rw [binary64_neg, binary64_three]

/-- The successor of `1` in the format, `1 + 2⁻⁵²`, is a number of the format. -/
theorem binary64_one_add_eps : binary64 (1 + 1 / 2 ^ 52) = 1 + 1 / 2 ^ 52 :=
  binary64_of_exact 0 (2 ^ 52 + 1) (by norm_num) (by norm_num) (by norm_num) (by norm_num)

/-- The number `-2⁻⁵²` is a number of the format. -/
theorem binary64_neg_eps : binary64 (-(1 / 2 ^ 52)) = -(1 / 2 ^ 52) :=
  binary64_of_exact_neg (-52) (2 ^ 52) (by norm_num) (by norm_num) (by norm_num) (by norm_num)

/-- The sum `2 + 2⁻⁵²` lies half way between `2` and its successor, and rounds to `2`. -/
theorem binary64_two_add_eps : binary64 (2 + 1 / 2 ^ 52) = 2 := by
  have h := binary64_of_tie_even (x := 2 + 1 / 2 ^ 52) 1 (2 ^ 52) (by norm_num) (by norm_num)
    (by norm_num) (by decide) (by norm_num)
  rw [h]
  norm_num

theorem sqrt_four : Real.sqrt 4 = 2 := by
  rw [show (4 : ℝ) = 2 ^ 2 by norm_num, Real.sqrt_sq (by norm_num)]

theorem sqrt_nine_quarters : Real.sqrt (9 / 4) = 3 / 2 := by
  rw [show (9 / 4 : ℝ) = (3 / 2) ^ 2 by norm_num, Real.sqrt_sq (by norm_num)]

/-! ## Helper lemmas on the eigenvalue computation -/

theorem sqrt_of_nonneg (fl : ℝ → ℝ) {x : ℝ} (hx : 0 ≤ x) :
    sqrt fl x = some (fl (Real.sqrt x)) := by
  simp [sqrt, hx]

theorem sqrt_of_neg (fl : ℝ → ℝ) {x : ℝ} (hx : x < 0) : sqrt fl x = none := by
  simp [sqrt, not_le.mpr hx]

theorem h_of_nonneg (fl : ℝ → ℝ) (a b d : Double) (hr : 0 ≤ drawCov.radicand fl a b d) :
    drawCov.h fl a b d = some (fl (Real.sqrt (drawCov.radicand fl a b d))) := by
  rw [drawCov.h, sqrt_of_nonneg fl hr]

theorem h_of_neg (fl : ℝ → ℝ) (a b d : Double) (hr : drawCov.radicand fl a b d < 0) :
    drawCov.h fl a b d = none := by
  rw [drawCov.h, sqrt_of_neg fl hr]

theorem lambda1_of_neg (fl : ℝ → ℝ) (a b d : Double) (hr : drawCov.radicand fl a b d < 0) :
    drawCov.lambda1 fl a b d = none := by
  simp [drawCov.lambda1, h_of_neg fl a b d hr]

theorem lambda2_of_neg (fl : ℝ → ℝ) (a b d : Double) (hr : drawCov.radicand fl a b d < 0) :
    drawCov.lambda2 fl a b d = none := by
  simp [drawCov.lambda2, h_of_neg fl a b d hr]

theorem majorAxis_of_lambda1 (fl : ℝ → ℝ) (a b d : Double) {l1 : ℝ}
    (h : drawCov.lambda1 fl a b d = some l1) :
    drawCov.majorAxis fl a b d = (sqrt fl l1).map (fun s => fl (3.0 * s)) := by
  simp [drawCov.majorAxis, h]

theorem minorAxis_of_lambda2 (fl : ℝ → ℝ) (a b d : Double) {l2 : ℝ}
    (h : drawCov.lambda2 fl a b d = some l2) :
    drawCov.minorAxis fl a b d = (sqrt fl l2).map (fun s => fl (3.0 * s)) := by
  simp [drawCov.minorAxis, h]

theorem majorAxis_of_neg (fl : ℝ → ℝ) (a b d : Double) (hr : drawCov.radicand fl a b d < 0) :
    drawCov.majorAxis fl a b d = none := by
  simp [drawCov.majorAxis, lambda1_of_neg fl a b d hr]

theorem minorAxis_of_neg (fl : ℝ → ℝ) (a b d : Double) (hr : drawCov.radicand fl a b d < 0) :
    drawCov.minorAxis fl a b d = none := by
  simp [drawCov.minorAxis, lambda2_of_neg fl a b d hr]

theorem specClampedH_eq (fl : ℝ → ℝ) (a b d : Double) :
    specClampedH fl a b d = sqrt fl (max 0 (drawCov.radicand fl a b d)) := by
  simp only [specClampedH, drawCov.radicand, drawCov.D, drawCov.T, sq]

/-! ### Arithmetic without rounding -/

theorem exactRadicand_eq (a b d : ℝ) : exactRadicand a b d = 0.25 * (a - d) ^ 2 + b ^ 2 := by
  simp only [exactRadicand]
  ring

theorem exactRadicand_nonneg (a b d : ℝ) : 0 ≤ exactRadicand a b d := by
  rw [exactRadicand_eq]
  positivity

theorem sqrt_exactRadicand_sq (a b d : ℝ) :
    Real.sqrt (exactRadicand a b d) * Real.sqrt (exactRadicand a b d) = exactRadicand a b d :=
  Real.mul_self_sqrt (exactRadicand_nonneg a b d)

/-- Without rounding the smaller eigenvalue is non-negative exactly when determinant and
trace are. -/
theorem exact_lambda2_nonneg_iff (a b d : ℝ) :
    0 ≤ 0.5 * (a + d) - Real.sqrt (exactRadicand a b d) ↔ 0 ≤ a * d - b * b ∧ 0 ≤ a + d := by
  have h0 := Real.sqrt_nonneg (exactRadicand a b d)
  have hs := sqrt_exactRadicand_sq a b d
  simp only [exactRadicand] at h0 hs ⊢
  constructor
  · intro hl
    have hT : 0 ≤ a + d := by linarith
    refine ⟨?_, hT⟩
    nlinarith
  · rintro ⟨hD, hT⟩
    by_contra hneg
    push_neg at hneg
    nlinarith

theorem noRounding_radicand (fl : ℝ → ℝ) (a b d : Double) (hex : drawCov.NoRounding fl a b d) :
    drawCov.radicand fl a b d = exactRadicand a.val b.val d.val := by
  obtain ⟨h1, h2, h3, h4, h5, h6, h7, -⟩ := hex
  simp only [exactRadicand] at h7
  simp only [drawCov.radicand, drawCov.T, drawCov.D, exactRadicand]
  rw [h1, h2, h3, h4, h5, h6, h7]

theorem noRounding_h (fl : ℝ → ℝ) (a b d : Double) (hex : drawCov.NoRounding fl a b d) :
    drawCov.h fl a b d = some (Real.sqrt (exactRadicand a.val b.val d.val)) := by
  rw [drawCov.h, noRounding_radicand fl a b d hex,
    sqrt_of_nonneg fl (exactRadicand_nonneg _ _ _), hex.2.2.2.2.2.2.2.1]

theorem noRounding_lambda1 (fl : ℝ → ℝ) (a b d : Double) (hex : drawCov.NoRounding fl a b d) :
    drawCov.lambda1 fl a b d =
      some (0.5 * (a.val + d.val) + Real.sqrt (exactRadicand a.val b.val d.val)) := by
  have h4 := hex.2.2.2.1
  have h9 := hex.2.2.2.2.2.2.2.2.1
  have h10 := hex.2.2.2.2.2.2.2.2.2.1
  simp only [drawCov.lambda1, noRounding_h fl a b d hex, drawCov.T, Option.map_some']
  rw [h4, h9, h10]

theorem noRounding_lambda2 (fl : ℝ → ℝ) (a b d : Double) (hex : drawCov.NoRounding fl a b d) :
    drawCov.lambda2 fl a b d =
      some (0.5 * (a.val + d.val) - Real.sqrt (exactRadicand a.val b.val d.val)) := by
  have h4 := hex.2.2.2.1
  have h9 := hex.2.2.2.2.2.2.2.2.1
  have h11 := hex.2.2.2.2.2.2.2.2.2.2
  simp only [drawCov.lambda2, noRounding_h fl a b d hex, drawCov.T, Option.map_some']
  rw [h4, h9, h11]

/-! ### Runs in `binary64` arithmetic -/

theorem noRounding_4_0_1 : drawCov.NoRounding binary64 (.num 4) (.num 0) (.num 1) := by
  simp only [drawCov.NoRounding, Double.val]
  rw [show exactRadicand 4 0 1 = 9 / 4 by norm_num [exactRadicand], sqrt_nine_quarters]
  norm_num [binary64_zero, binary64_one, binary64_four, binary64_five, binary64_twentyfive,
    binary64_twentyfive_quarters, binary64_nine_quarters, binary64_three_halves,
    binary64_five_halves, sqrt_nine_quarters]

theorem noRounding_2_1_2 : drawCov.NoRounding binary64 (.num 2) (.num 1) (.num 2) := by
  simp only [drawCov.NoRounding, Double.val]
  rw [show exactRadicand 2 1 2 = 1 by norm_num [exactRadicand], Real.sqrt_one]
  norm_num [binary64_zero, binary64_one, binary64_two, binary64_three, binary64_four,
    binary64_sixteen]

theorem noRounding_1_2_1 : drawCov.NoRounding binary64 (.num 1) (.num 2) (.num 1) := by
  simp only [drawCov.NoRounding, Double.val]
  rw [show exactRadicand 1 2 1 = 4 by norm_num [exactRadicand], sqrt_four]
  norm_num [binary64_zero, binary64_one, binary64_two, binary64_three, binary64_four,
    binary64_neg_one, binary64_neg_three]

theorem noRounding_0_1_0 : drawCov.NoRounding binary64 (.num 0) (.num 1) (.num 0) := by
  simp only [drawCov.NoRounding, Double.val]
  rw [show exactRadicand 0 1 0 = 1 by norm_num [exactRadicand], Real.sqrt_one]
  norm_num [binary64_zero, binary64_one, binary64_neg_one]

theorem noRounding_neg1_0_neg1 :
    drawCov.NoRounding binary64 (.num (-1)) (.num 0) (.num (-1)) := by
  simp only [drawCov.NoRounding, Double.val]
  rw [show exactRadicand (-1) 0 (-1) = 0 by norm_num [exactRadicand], Real.sqrt_zero]
  norm_num [binary64_zero, binary64_one, binary64_four, binary64_neg_one, binary64_neg_two]

/-- In `binary64` arithmetic the radicand at the positive definite `a = 1 + 2⁻⁵²`, `b = 0`,
`d = 1` is `-2⁻⁵²`: the trace `a + d` rounds to `2`, so `0.25*(T*T)` is `1`, less than `D`. -/
theorem radicand_at_one_add_eps :
    drawCov.radicand binary64 (.num (1 + 1 / 2 ^ 52)) (.num 0) (.num 1) = -(1 / 2 ^ 52) := by
  have hT : drawCov.T binary64 (.num (1 + 1 / 2 ^ 52)) (.num 1) = 2 := by
    simp only [drawCov.T, Double.val]
    rw [show (1 + 1 / 2 ^ 52 + 1 : ℝ) = 2 + 1 / 2 ^ 52 by ring]
    exact binary64_two_add_eps
  have hD : drawCov.D binary64 (.num (1 + 1 / 2 ^ 52)) (.num 0) (.num 1) = 1 + 1 / 2 ^ 52 := by
    simp only [drawCov.D, Double.val]
    rw [mul_one, mul_zero, binary64_zero, sub_zero, binary64_one_add_eps, binary64_one_add_eps]
  simp only [drawCov.radicand]
  rw [hT, hD, show (2 : ℝ) * 2 = 4 by norm_num, binary64_four,
    show (0.25 : ℝ) * 4 = 1 by norm_num, binary64_one,
    show (1 : ℝ) - (1 + 1 / 2 ^ 52) = -(1 / 2 ^ 52) by ring, binary64_neg_eps]

theorem radicand_at_one_add_eps_neg :
    drawCov.radicand binary64 (.num (1 + 1 / 2 ^ 52)) (.num 0) (.num 1) < 0 := by
  rw [radicand_at_one_add_eps]
  norm_num

theorem lambda2_at_1_2_1 :
    drawCov.lambda2 binary64 (.num 1) (.num 2) (.num 1) = some (-1) := by
  rw [noRounding_lambda2 binary64 _ _ _ noRounding_1_2_1]
  simp only [Double.val]
  rw [show exactRadicand 1 2 1 = 4 by norm_num [exactRadicand], sqrt_four]
  norm_num

theorem radicand_at_1_2_1 :
    drawCov.radicand binary64 (.num 1) (.num 2) (.num 1) = 4 := by
  rw [noRounding_radicand binary64 _ _ _ noRounding_1_2_1]
  norm_num [exactRadicand, Double.val]

/-! ## The claims on the eigenvalue computation -/

/-- C1, counterexample: at `a = 1, b = 2, d = 1` the smaller eigenvalue is `-1`, and
`minorAxis` is NaN, not `0`. -/
theorem drawCov_minorAxis_nan_at_1_2_1 :
    drawCov.lambda2 binary64 (.num 1) (.num 2) (.num 1) = some (-1) ∧
      drawCov.minorAxis binary64 (.num 1) (.num 2) (.num 1) = none ∧
      drawCov.minorAxis binary64 (.num 1) (.num 2) (.num 1) ≠ some 0 := by
  have hm : drawCov.minorAxis binary64 (.num 1) (.num 2) (.num 1) = none := by
    rw [minorAxis_of_lambda2 binary64 _ _ _ lambda2_at_1_2_1, sqrt_of_neg binary64 (by norm_num)]
    rfl
  exact ⟨lambda2_at_1_2_1, hm, by simp [hm]⟩

/-- C1, amended: whenever the smaller eigenvalue `lambda2` computed by `drawCov` is negative,
the unguarded `sqrt(lambda2)` is a domain error and `minorAxis` is NaN (it is not set to `0`);
whenever `lambda2` is non-negative, `minorAxis` is the number `3·sqrt(lambda2)`, as computed in
the arithmetic of the code. -/
theorem drawCov_minorAxis_of_lambda2 (fl : ℝ → ℝ) (a b d : Double) (l2 : ℝ)
    (h : drawCov.lambda2 fl a b d = some l2) :
    (l2 < 0 → drawCov.minorAxis fl a b d = none) ∧
      (0 ≤ l2 → drawCov.minorAxis fl a b d = some (fl (3 * fl (Real.sqrt l2)))) := by
  rw [minorAxis_of_lambda2 fl a b d h]
  constructor
  · intro hneg
    rw [sqrt_of_neg fl hneg]
    rfl
  · intro hpos
    rw [sqrt_of_nonneg fl hpos]
    norm_num

/-- Witness of the amended C1 at `a = 1, b = 2, d = 1` in `binary64` arithmetic, where
`lambda2 = -1`. -/
theorem drawCov_minorAxis_of_lambda2_witness :
    drawCov.lambda2 binary64 (.num 1) (.num 2) (.num 1) = some (-1) ∧
      drawCov.minorAxis binary64 (.num 1) (.num 2) (.num 1) = none :=
  ⟨lambda2_at_1_2_1,
   (drawCov_minorAxis_of_lambda2 binary64 _ _ _ (-1) lambda2_at_1_2_1).1 (by norm_num)⟩

/-- C2, counterexample: in `binary64` arithmetic, at the positive definite `a = 1 + 2⁻⁵²`,
`b = 0`, `d = 1` the radicand computed by `drawCov` is `-2⁻⁵²`, so its `h` is NaN, while the
clamped form of the specification is `0`. -/
theorem drawCov_h_ne_specClampedH_at_one_add_eps :
    drawCov.radicand binary64 (.num (1 + 1 / 2 ^ 52)) (.num 0) (.num 1) = -(1 / 2 ^ 52) ∧
    drawCov.h binary64 (.num (1 + 1 / 2 ^ 52)) (.num 0) (.num 1) = none ∧
    specClampedH binary64 (.num (1 + 1 / 2 ^ 52)) (.num 0) (.num 1) = some 0 ∧
    drawCov.h binary64 (.num (1 + 1 / 2 ^ 52)) (.num 0) (.num 1) ≠
      specClampedH binary64 (.num (1 + 1 / 2 ^ 52)) (.num 0) (.num 1) := by
  have hh := h_of_neg binary64 _ _ _ radicand_at_one_add_eps_neg
  have hs : specClampedH binary64 (.num (1 + 1 / 2 ^ 52)) (.num 0) (.num 1) = some 0 := by
    rw [specClampedH_eq, max_eq_left radicand_at_one_add_eps_neg.le,
      sqrt_of_nonneg binary64 le_rfl, Real.sqrt_zero, binary64_zero]
  refine ⟨radicand_at_one_add_eps, hh, hs, ?_⟩
  rw [hh, hs]
  simp

/-- C2, amended: `drawCov` takes the square root of the radicand `0.25*(T*T) - D` as computed,
with no clamp. Whenever the computed radicand is non-negative, `h` is the number
`sqrt(max(0, 0.25·T² − D))` of the clamped form; whenever it is negative, `h` is NaN while the
clamped form is `sqrt(0)`. -/
theorem drawCov_h_vs_specClampedH (fl : ℝ → ℝ) (a b d : Double) :
    (0 ≤ drawCov.radicand fl a b d →
      drawCov.h fl a b d = specClampedH fl a b d ∧
      drawCov.h fl a b d = some (fl (Real.sqrt (max 0 (drawCov.radicand fl a b d))))) ∧
    (drawCov.radicand fl a b d < 0 →
      drawCov.h fl a b d = none ∧ specClampedH fl a b d = some (fl 0)) := by
  constructor
  · intro hr
    rw [specClampedH_eq, max_eq_right hr]
    exact ⟨rfl, h_of_nonneg fl a b d hr⟩
  · intro hr
    refine ⟨h_of_neg fl a b d hr, ?_⟩
    rw [specClampedH_eq, max_eq_left hr.le, sqrt_of_nonneg fl le_rfl, Real.sqrt_zero]

/-- Witness of the amended C2 in `binary64` arithmetic: at `(1, 2, 1)` the radicand is `4` and
`h` is the clamped form; at `(1 + 2⁻⁵², 0, 1)` the radicand is negative and `h` is NaN. -/
theorem drawCov_h_vs_specClampedH_witness :
    drawCov.h binary64 (.num 1) (.num 2) (.num 1) =
      specClampedH binary64 (.num 1) (.num 2) (.num 1) ∧
    drawCov.h binary64 (.num (1 + 1 / 2 ^ 52)) (.num 0) (.num 1) = none :=
  ⟨((drawCov_h_vs_specClampedH binary64 (.num 1) (.num 2) (.num 1)).1
      (by rw [radicand_at_1_2_1]; norm_num)).1,
   ((drawCov_h_vs_specClampedH binary64 (.num (1 + 1 / 2 ^ 52)) (.num 0) (.num 1)).2
      radicand_at_one_add_eps_neg).1⟩

/-- C7, counterexample: in `binary64` arithmetic, at `a = 1 + 2⁻⁵²`, `b = 0`, `d = 1` both
eigenvalues are NaN, so there are no numbers `lambda1 ≥ lambda2`. -/
theorem drawCov_lambdas_nan_at_one_add_eps :
    drawCov.lambda1 binary64 (.num (1 + 1 / 2 ^ 52)) (.num 0) (.num 1) = none ∧
    drawCov.lambda2 binary64 (.num (1 + 1 / 2 ^ 52)) (.num 0) (.num 1) = none ∧
    ¬ ∃ l1 l2 : ℝ, drawCov.lambda1 binary64 (.num (1 + 1 / 2 ^ 52)) (.num 0) (.num 1) = some l1 ∧
      drawCov.lambda2 binary64 (.num (1 + 1 / 2 ^ 52)) (.num 0) (.num 1) = some l2 ∧
      l1 ≥ l2 := by
  have h1 := lambda1_of_neg binary64 _ _ _ radicand_at_one_add_eps_neg
  refine ⟨h1, lambda2_of_neg binary64 _ _ _ radicand_at_one_add_eps_neg, ?_⟩
  rintro ⟨l1, l2, h, -⟩
  rw [h1] at h
  exact Option.noConfusion h

/-- C7, amended: in arithmetic with a monotone rounding that keeps `0`, whenever the radicand
computed by `drawCov` is non-negative both eigenvalues are numbers and `lambda1 ≥ lambda2`;
whenever it is negative both are NaN. -/
theorem drawCov_lambda1_ge_lambda2 (fl : ℝ → ℝ) (hmono : Monotone fl) (h0 : fl 0 = 0)
    (a b d : Double) :
    (0 ≤ drawCov.radicand fl a b d →
      ∃ l1 l2 : ℝ, drawCov.lambda1 fl a b d = some l1 ∧ drawCov.lambda2 fl a b d = some l2 ∧
        l1 ≥ l2) ∧
    (drawCov.radicand fl a b d < 0 →
      drawCov.lambda1 fl a b d = none ∧ drawCov.lambda2 fl a b d = none) := by
  constructor
  · intro hr
    have hh := h_of_nonneg fl a b d hr
    have hnn : 0 ≤ fl (Real.sqrt (drawCov.radicand fl a b d)) := by
      rw [← h0]
      exact hmono (Real.sqrt_nonneg _)
    refine ⟨_, _, by rw [drawCov.lambda1, hh]; rfl, by rw [drawCov.lambda2, hh]; rfl, ?_⟩
    apply hmono
    linarith
  · intro hr
    exact ⟨lambda1_of_neg fl a b d hr, lambda2_of_neg fl a b d hr⟩

/-- Witness of the amended C7 in `binary64` arithmetic, at `(1, 2, 1)` and at
`(1 + 2⁻⁵², 0, 1)`. -/
theorem drawCov_lambda1_ge_lambda2_witness :
    (∃ l1 l2 : ℝ, drawCov.lambda1 binary64 (.num 1) (.num 2) (.num 1) = some l1 ∧
      drawCov.lambda2 binary64 (.num 1) (.num 2) (.num 1) = some l2 ∧ l1 ≥ l2) ∧
    (drawCov.lambda1 binary64 (.num (1 + 1 / 2 ^ 52)) (.num 0) (.num 1) = none ∧
      drawCov.lambda2 binary64 (.num (1 + 1 / 2 ^ 52)) (.num 0) (.num 1) = none) :=
  ⟨(drawCov_lambda1_ge_lambda2 binary64 binary64_monotone binary64_zero _ _ _).1
      (by rw [radicand_at_1_2_1]; norm_num),
   (drawCov_lambda1_ge_lambda2 binary64 binary64_monotone binary64_zero _ _ _).2
      radicand_at_one_add_eps_neg⟩

/-- C9, counterexample: in `binary64` arithmetic, at the symmetric matrix `a = 1 + 2⁻⁵²`,
`b = 0`, `d = 1` the computed radicand is `-2⁻⁵²`, negative, and `lambda1`, `lambda2` are NaN,
not the eigenvalues `1 + 2⁻⁵²` and `1`. -/
theorem drawCov_radicand_neg_at_one_add_eps :
    drawCov.radicand binary64 (.num (1 + 1 / 2 ^ 52)) (.num 0) (.num 1) < 0 ∧
    drawCov.lambda1 binary64 (.num (1 + 1 / 2 ^ 52)) (.num 0) (.num 1) = none ∧
    drawCov.lambda2 binary64 (.num (1 + 1 / 2 ^ 52)) (.num 0) (.num 1) = none :=
  ⟨radicand_at_one_add_eps_neg, lambda1_of_neg binary64 _ _ _ radicand_at_one_add_eps_neg,
   lambda2_of_neg binary64 _ _ _ radicand_at_one_add_eps_neg⟩

/-- C9, amended: for every symmetric matrix `[[a, b], [b, d]]` on which the eigenvalue
computation of `drawCov` rounds nowhere, the radicand equals `0.25·(a−d)² + b²` and is not
negative, and `lambda1`, `lambda2` are the eigenvalues: their sum is the trace `a + d`, their
product the determinant `a·d − b²`, and each is a root of `λ² − (a + d)·λ + (a·d − b²)`. -/
theorem drawCov_lambdas_are_eigenvalues (fl : ℝ → ℝ) (a b d : Double)
    (hex : drawCov.NoRounding fl a b d) :
    drawCov.radicand fl a b d = 0.25 * (a.val - d.val) ^ 2 + b.val ^ 2 ∧
    0 ≤ drawCov.radicand fl a b d ∧
    ∃ l1 l2 : ℝ, drawCov.lambda1 fl a b d = some l1 ∧ drawCov.lambda2 fl a b d = some l2 ∧
      l1 + l2 = a.val + d.val ∧ l1 * l2 = a.val * d.val - b.val ^ 2 ∧
      l1 ^ 2 - (a.val + d.val) * l1 + (a.val * d.val - b.val ^ 2) = 0 ∧
      l2 ^ 2 - (a.val + d.val) * l2 + (a.val * d.val - b.val ^ 2) = 0 := by
  have hr := noRounding_radicand fl a b d hex
  refine ⟨by rw [hr, exactRadicand_eq], by rw [hr]; exact exactRadicand_nonneg _ _ _, _, _,
    noRounding_lambda1 fl a b d hex, noRounding_lambda2 fl a b d hex, ?_⟩
  have hs := sqrt_exactRadicand_sq a.val b.val d.val
  generalize Real.sqrt (exactRadicand a.val b.val d.val) = s at hs
  simp only [exactRadicand] at hs
  refine ⟨by ring, ?_, ?_, ?_⟩ <;> nlinarith [hs]

/-- Witness of the amended C9 in `binary64` arithmetic at `a = 2, b = 1, d = 2`, where no
operation rounds: the eigenvalues are `3` and `1`. -/
theorem drawCov_lambdas_are_eigenvalues_witness :
    drawCov.NoRounding binary64 (.num 2) (.num 1) (.num 2) ∧
    ∃ l1 l2 : ℝ, drawCov.lambda1 binary64 (.num 2) (.num 1) (.num 2) = some l1 ∧
      drawCov.lambda2 binary64 (.num 2) (.num 1) (.num 2) = some l2 ∧
      l1 + l2 = 2 + 2 ∧ l1 * l2 = 2 * 2 - 1 ^ 2 ∧
      l1 ^ 2 - (2 + 2) * l1 + (2 * 2 - 1 ^ 2) = 0 ∧
      l2 ^ 2 - (2 + 2) * l2 + (2 * 2 - 1 ^ 2) = 0 :=
  ⟨noRounding_2_1_2,
   (drawCov_lambdas_are_eigenvalues binary64 (.num 2) (.num 1) (.num 2) noRounding_2_1_2).2.2⟩

/-- C3, counterexample: in `binary64` arithmetic, at `a = 0, b = 1, d = 0` (negative
determinant) the minor axis is a domain error, and at `a = -1, b = 0, d = -1` (negative trace)
the major axis is one too, so neither input gives axes with `majorAxis ≥ minorAxis ≥ 0`. -/
theorem drawCov_axes_nan_on_indefinite :
    drawCov.minorAxis binary64 (.num 0) (.num 1) (.num 0) = none ∧
    drawCov.majorAxis binary64 (.num (-1)) (.num 0) (.num (-1)) = none ∧
    (¬ ∃ M m : ℝ, drawCov.majorAxis binary64 (.num 0) (.num 1) (.num 0) = some M ∧
      drawCov.minorAxis binary64 (.num 0) (.num 1) (.num 0) = some m ∧ M ≥ m ∧ m ≥ 0) ∧
    (¬ ∃ M m : ℝ, drawCov.majorAxis binary64 (.num (-1)) (.num 0) (.num (-1)) = some M ∧
      drawCov.minorAxis binary64 (.num (-1)) (.num 0) (.num (-1)) = some m ∧
      M ≥ m ∧ m ≥ 0) := by
  have hl2 : drawCov.lambda2 binary64 (.num 0) (.num 1) (.num 0) = some (-1) := by
    rw [noRounding_lambda2 binary64 _ _ _ noRounding_0_1_0]
    simp only [Double.val]
    rw [show exactRadicand 0 1 0 = 1 by norm_num [exactRadicand], Real.sqrt_one]
    norm_num
  have hl1 : drawCov.lambda1 binary64 (.num (-1)) (.num 0) (.num (-1)) = some (-1) := by
    rw [noRounding_lambda1 binary64 _ _ _ noRounding_neg1_0_neg1]
    simp only [Double.val]
    rw [show exactRadicand (-1) 0 (-1) = 0 by norm_num [exactRadicand], Real.sqrt_zero]
    norm_num
  have hm : drawCov.minorAxis binary64 (.num 0) (.num 1) (.num 0) = none := by
    rw [minorAxis_of_lambda2 binary64 _ _ _ hl2, sqrt_of_neg binary64 (by norm_num)]
    rfl
  have hM : drawCov.majorAxis binary64 (.num (-1)) (.num 0) (.num (-1)) = none := by
    rw [majorAxis_of_lambda1 binary64 _ _ _ hl1, sqrt_of_neg binary64 (by norm_num)]
    rfl
  refine ⟨hm, hM, ?_, ?_⟩
  · rintro ⟨M, m, -, h2, -⟩
    simp [hm] at h2
  · rintro ⟨M, m, h1, -⟩
    simp [hM] at h1

/-- C3, amended: in arithmetic with a monotone rounding that keeps `0`, `drawCov` clamps
nothing. If the computed radicand is negative, both axes are NaN; if a computed eigenvalue is
negative, the square root for its axis is a domain error and the axis is NaN; and if the
computed `lambda2` is non-negative, there is no domain error and the axes passed to the scale
step are numbers with `majorAxis ≥ minorAxis ≥ 0`. On a run that rounds nowhere the last case
is that of the inputs with `a·d − b² ≥ 0` and `a + d ≥ 0`, and every input with
`a·d − b² < 0` or `a + d < 0` has a NaN `minorAxis`. -/
theorem drawCov_axes_ordered_or_nan (fl : ℝ → ℝ) (hmono : Monotone fl) (h0 : fl 0 = 0)
    (a b d : Double) :
    (drawCov.radicand fl a b d < 0 →
      drawCov.majorAxis fl a b d = none ∧ drawCov.minorAxis fl a b d = none) ∧
    (∀ l1 : ℝ, drawCov.lambda1 fl a b d = some l1 → l1 < 0 →
      drawCov.majorAxis fl a b d = none) ∧
    (∀ l2 : ℝ, drawCov.lambda2 fl a b d = some l2 → l2 < 0 →
      drawCov.minorAxis fl a b d = none) ∧
    (∀ l2 : ℝ, drawCov.lambda2 fl a b d = some l2 → 0 ≤ l2 →
      ∃ M m : ℝ, drawCov.majorAxis fl a b d = some M ∧ drawCov.minorAxis fl a b d = some m ∧
        M ≥ m ∧ m ≥ 0) ∧
    (drawCov.NoRounding fl a b d →
      (0 ≤ a.val * d.val - b.val ^ 2 ∧ 0 ≤ a.val + d.val →
        ∃ M m : ℝ, drawCov.majorAxis fl a b d = some M ∧
          drawCov.minorAxis fl a b d = some m ∧ M ≥ m ∧ m ≥ 0) ∧
      (a.val * d.val - b.val ^ 2 < 0 ∨ a.val + d.val < 0 →
        drawCov.minorAxis fl a b d = none)) := by
  have hnn : ∀ x : ℝ, 0 ≤ x → 0 ≤ fl x := fun x hx => by
    rw [← h0]
    exact hmono hx
  have ordered : ∀ l2 : ℝ, drawCov.lambda2 fl a b d = some l2 → 0 ≤ l2 →
      ∃ M m : ℝ, drawCov.majorAxis fl a b d = some M ∧ drawCov.minorAxis fl a b d = some m ∧
        M ≥ m ∧ m ≥ 0 := by
    intro l2 hl2 hpos
    rcases lt_or_le (drawCov.radicand fl a b d) 0 with hr | hr
    · rw [lambda2_of_neg fl a b d hr] at hl2
      exact Option.noConfusion hl2
    · have hh := h_of_nonneg fl a b d hr
      have hv := hnn _ (Real.sqrt_nonneg (drawCov.radicand fl a b d))
      have e2 : l2 = fl (fl (0.5 * drawCov.T fl a d)
          - fl (Real.sqrt (drawCov.radicand fl a b d))) := by
        rw [drawCov.lambda2, hh] at hl2
        exact (Option.some.inj hl2).symm
      have hl1 : drawCov.lambda1 fl a b d = some (fl (fl (0.5 * drawCov.T fl a d)
          + fl (Real.sqrt (drawCov.radicand fl a b d)))) := by
        rw [drawCov.lambda1, hh]
        rfl
      have hle : l2 ≤ fl (fl (0.5 * drawCov.T fl a d)
          + fl (Real.sqrt (drawCov.radicand fl a b d))) := by
        rw [e2]
        apply hmono
        linarith
      have hpos1 := le_trans hpos hle
      refine ⟨fl (3.0 * fl (Real.sqrt (fl (fl (0.5 * drawCov.T fl a d)
          + fl (Real.sqrt (drawCov.radicand fl a b d)))))),
        fl (3.0 * fl (Real.sqrt l2)), ?_, ?_, ?_, ?_⟩
      · rw [majorAxis_of_lambda1 fl a b d hl1, sqrt_of_nonneg fl hpos1]
        rfl
      · rw [minorAxis_of_lambda2 fl a b d hl2, sqrt_of_nonneg fl hpos]
        rfl
      · apply hmono
        have := hmono (Real.sqrt_le_sqrt hle)
        linarith
      · apply hnn
        have := hnn _ (Real.sqrt_nonneg l2)
        linarith
  refine ⟨fun hr => ⟨majorAxis_of_neg fl a b d hr, minorAxis_of_neg fl a b d hr⟩, ?_, ?_,
    ordered, ?_⟩
  · intro l1 hl1 hneg
    rw [majorAxis_of_lambda1 fl a b d hl1, sqrt_of_neg fl hneg]
    rfl
  · intro l2 hl2 hneg
    rw [minorAxis_of_lambda2 fl a b d hl2, sqrt_of_neg fl hneg]
    rfl
  · intro hex
    have hl2 := noRounding_lambda2 fl a b d hex
    have key := exact_lambda2_nonneg_iff a.val b.val d.val
    constructor
    · rintro ⟨hD, hT⟩
      exact ordered _ hl2 (key.mpr ⟨by linarith, hT⟩)
    · intro hviol
      have hneg : 0.5 * (a.val + d.val) - Real.sqrt (exactRadicand a.val b.val d.val) < 0 := by
        by_contra hge
        push_neg at hge
        have := key.mp hge
        rcases hviol with h | h
        · linarith [this.1]
        · linarith [this.2]
      rw [minorAxis_of_lambda2 fl a b d hl2, sqrt_of_neg fl hneg]
      rfl

/-- Witness of the amended C3 in `binary64` arithmetic: at `(1, 2, 1)` the computed `lambda2`
is `-1` and `minorAxis` is NaN; at `(4, 0, 1)`, positive definite and without rounding, the
axes are ordered numbers. -/
theorem drawCov_axes_ordered_or_nan_witness :
    drawCov.minorAxis binary64 (.num 1) (.num 2) (.num 1) = none ∧
    ∃ M m : ℝ, drawCov.majorAxis binary64 (.num 4) (.num 0) (.num 1) = some M ∧
      drawCov.minorAxis binary64 (.num 4) (.num 0) (.num 1) = some m ∧ M ≥ m ∧ m ≥ 0 :=
  ⟨(drawCov_axes_ordered_or_nan binary64 binary64_monotone binary64_zero
      (.num 1) (.num 2) (.num 1)).2.2.1 (-1) lambda2_at_1_2_1 (by norm_num),
   ((drawCov_axes_ordered_or_nan binary64 binary64_monotone binary64_zero
      (.num 4) (.num 0) (.num 1)).2.2.2.2 noRounding_4_0_1).1
      ⟨by norm_num [Double.val], by norm_num [Double.val]⟩⟩

/-! ### The angle of a diagonal covariance -/

theorem drawSE2_nil (v : VertexSE2) :
    drawSE2 v [] =
      [GLCall.glVertex3f (v.estimate.mul drawSE2.p1).1 (v.estimate.mul drawSE2.p1).2 0,
       GLCall.glVertex3f (v.estimate.mul drawSE2.p2).1 (v.estimate.mul drawSE2.p2).2 0,
       GLCall.glVertex3f (v.estimate.mul drawSE2.p3).1 (v.estimate.mul drawSE2.p3).2 0] := by
  simp [drawSE2]

theorem drawSE2_append (v : VertexSE2) (gl : List GLCall) :
    drawSE2 v gl = gl ++ drawSE2 v [] := by
  simp [drawSE2]

/-- The calls of `drawCov`, one by one: the scale step gets `majorAxis` and `minorAxis`. -/
theorem drawCov_nil (fl : ℝ → ℝ) (RAD2DEG : ℝ → ℝ) (p : Vector2d)
    (cov : Matrix (Fin 2) (Fin 2) Double) :
    drawCov fl RAD2DEG p cov [] =
      [GLCall.glPushMatrix, GLCall.glTranslatef p.1 p.2 0,
       GLCall.glRotatef (RAD2DEG (drawCov.theta fl (cov 0 0) (cov 0 1) (cov 1 1))) 0 0 1,
       GLCall.glScalef
         ((drawCov.majorAxis fl (cov 0 0) (cov 0 1) (cov 1 1)).map (fun m => fl (m * 1)))
         ((drawCov.minorAxis fl (cov 0 0) (cov 0 1) (cov 1 1)).map (fun m => fl (m * 1)))
         (some 1),
       GLCall.glColor4f 1 1 0 0.4, GLCall.drawDisk 1, GLCall.glColor4f 0 0 0 1,
       GLCall.drawCircle 1, GLCall.glPopMatrix] := by
  simp [drawCov, drawCov.scalingFactor]
  norm_num

theorem drawCov_append (fl : ℝ → ℝ) (RAD2DEG : ℝ → ℝ) (p : Vector2d)
    (cov : Matrix (Fin 2) (Fin 2) Double) (gl : List GLCall) :
    drawCov fl RAD2DEG p cov gl = gl ++ drawCov fl RAD2DEG p cov [] := by
  simp [drawCov]

/-- The first loop of `draw` appends the triangle of every pose, in the order of the map. -/
theorem foldl_drawPoseStep (vs : VertexIDMap) (gl : List GLCall) :
    vs.foldl Slam2DViewer.drawPoseStep gl =
      gl ++ (vs.filterMap (fun it => it.2.toVertexSE2)).flatMap (fun v => drawSE2 v []) := by
  induction vs generalizing gl with
  | nil => simp
  | cons it vs ih =>
    rw [List.foldl_cons, ih, List.filterMap_cons]
    cases hc : it.2.toVertexSE2 with
    | none => simp [Slam2DViewer.drawPoseStep, hc]
    | some v =>
      simp only [Slam2DViewer.drawPoseStep, hc, List.flatMap_cons]
      rw [drawSE2_append v gl, List.append_assoc]

/-- The second loop of `draw` appends one vertex for every landmark, in the order of the
map. -/
theorem foldl_drawPointStep (vs : VertexIDMap) (gl : List GLCall) :
    vs.foldl Slam2DViewer.drawPointStep gl =
      gl ++ (vs.filterMap (fun it => it.2.toVertexPointXY)).map
        (fun v => GLCall.glVertex3f v.estimate.1 v.estimate.2 0) := by
  induction vs generalizing gl with
  | nil => simp
  | cons it vs ih =>
    rw [List.foldl_cons, ih, List.filterMap_cons]
    cases hc : it.2.toVertexPointXY with
    | none => simp [Slam2DViewer.drawPointStep, hc]
    | some v => simp [Slam2DViewer.drawPointStep, hc]

/-- The third loop of `draw` appends the ellipse of every pose, in the order of the map. -/
theorem foldl_drawCovStep (fl : ℝ → ℝ) (RAD2DEG : ℝ → ℝ) (vs : VertexIDMap)
    (gl : List GLCall) :
    vs.foldl (Slam2DViewer.drawCovStep fl RAD2DEG) gl =
      gl ++ (vs.filterMap (fun it => it.2.toVertexSE2)).flatMap
        (fun v => drawCov fl RAD2DEG v.estimate.translation v.uncertainty []) := by
  induction vs generalizing gl with
  | nil => simp
  | cons it vs ih =>
    rw [List.foldl_cons, ih, List.filterMap_cons]
    cases hc : it.2.toVertexSE2 with
    | none => simp [Slam2DViewer.drawCovStep, hc]
    | some v =>
      simp only [Slam2DViewer.drawCovStep, hc, List.flatMap_cons]
      rw [drawCov_append fl RAD2DEG _ _ gl, List.append_assoc]

theorem filterMap_toVertexSE2_filter (vs : VertexIDMap) :
    (vs.filter (fun it => it.2.recognized)).filterMap (fun it => it.2.toVertexSE2) =
      vs.filterMap (fun it => it.2.toVertexSE2) := by
  rw [List.filterMap_filter]
  congr 1
  funext it
  obtain ⟨id, v⟩ := it
  cases v <;> rfl

theorem filterMap_toVertexPointXY_filter (vs : VertexIDMap) :
    (vs.filter (fun it => it.2.recognized)).filterMap (fun it => it.2.toVertexPointXY) =
      vs.filterMap (fun it => it.2.toVertexPointXY) := by
  rw [List.filterMap_filter]
  congr 1
  funext it
  obtain ⟨id, v⟩ := it
  cases v <;> rfl

/-- The calls of `draw` on an attached graph, as one list. -/
theorem draw_calls (fl : ℝ → ℝ) (RAD2DEG : ℝ → ℝ) (vs : VertexIDMap) (flag : Bool)
    (gl : List GLCall) :
    (Slam2DViewer.draw fl RAD2DEG ⟨some ⟨vs⟩, flag⟩ gl).2 =
      gl ++ [GLCall.glColor4f 0 0.67 1 1, GLCall.glBegin GLenum.GL_TRIANGLES]
        ++ (vs.filterMap (fun it => it.2.toVertexSE2)).flatMap (fun v => drawSE2 v [])
        ++ [GLCall.glEnd, GLCall.glColor4f 1 0.67 0 1, GLCall.glPointSize 2,
            GLCall.glBegin GLenum.GL_POINTS]
        ++ (vs.filterMap (fun it => it.2.toVertexPointXY)).map
            (fun v => GLCall.glVertex3f v.estimate.1 v.estimate.2 0)
        ++ [GLCall.glEnd, GLCall.glPointSize 1]
        ++ (if flag then (vs.filterMap (fun it => it.2.toVertexSE2)).flatMap
            (fun v => drawCov fl RAD2DEG v.estimate.translation v.uncertainty []) else []) := by
  cases flag <;>
    simp [Slam2DViewer.draw, foldl_drawPoseStep, foldl_drawPointStep, foldl_drawCovStep] <;>
    norm_num

theorem countP_flatMap_of_const {α β : Type} (p : β → Bool) (f : α → List β) (k : ℕ)
    (h : ∀ a, (f a).countP p = k) (l : List α) : (l.flatMap f).countP p = k * l.length := by
  induction l with
  | nil => simp
  | cons a l ih =>
    rw [List.flatMap_cons, List.countP_append, h, ih, List.length_cons]
    ring

/-! ## The claims on the drawing routines -/

/-- C5: for every pose `(x, y, θ)`, `drawSE2` makes exactly three `glVertex3f` calls, in this
order: the images under `(px, py) ↦ (x + cosθ·px − sinθ·py, y + sinθ·px + cosθ·py)` of the local
points `(0.75·L, 0)`, `(−0.25·L, 0.5·L)`, `(−0.25·L, −0.5·L)` with `L = 0.2`, each with `z = 0`.
The first of them, the tip, is `(x + 0.15·cosθ, y + 0.15·sinθ)`, and for the pose `(1, 2, 0)` it
is `(1.15, 2)`. -/
theorem drawSE2_vertices (x y θ : ℝ) (unc : Matrix (Fin 2) (Fin 2) Double) (gl : List GLCall) :
    drawSE2 ⟨⟨x, y, θ⟩, unc⟩ gl = gl ++
      [GLCall.glVertex3f (x + Real.cos θ * (0.75 * 0.2) - Real.sin θ * 0)
         (y + Real.sin θ * (0.75 * 0.2) + Real.cos θ * 0) 0,
       GLCall.glVertex3f (x + Real.cos θ * (-0.25 * 0.2) - Real.sin θ * (0.5 * 0.2))
         (y + Real.sin θ * (-0.25 * 0.2) + Real.cos θ * (0.5 * 0.2)) 0,
       GLCall.glVertex3f (x + Real.cos θ * (-0.25 * 0.2) - Real.sin θ * (-0.5 * 0.2))
         (y + Real.sin θ * (-0.25 * 0.2) + Real.cos θ * (-0.5 * 0.2)) 0] ∧
    (drawSE2 ⟨⟨x, y, θ⟩, unc⟩ []).head? =
      some (GLCall.glVertex3f (x + 0.15 * Real.cos θ) (y + 0.15 * Real.sin θ) 0) ∧
    drawSE2 ⟨⟨1, 2, 0⟩, unc⟩ gl = gl ++
      [GLCall.glVertex3f 1.15 2 0, GLCall.glVertex3f 0.95 2.1 0, GLCall.glVertex3f 0.95 1.9 0] := by
  refine ⟨?_, ?_, ?_⟩
  · simp [drawSE2, SE2.mul, drawSE2.p1, drawSE2.p2, drawSE2.p3, drawSE2.len]
  · simp only [drawSE2, SE2.mul, drawSE2.p1, drawSE2.p2, drawSE2.p3, drawSE2.len,
      List.nil_append, List.cons_append, List.head?_cons, Option.some.injEq,
      GLCall.glVertex3f.injEq]
    exact ⟨by ring, by ring, trivial⟩
  · simp only [drawSE2, SE2.mul, drawSE2.p1, drawSE2.p2, drawSE2.p3, drawSE2.len,
      List.append_assoc, List.singleton_append, Real.cos_zero, Real.sin_zero]
    norm_num

/-- C6: on an attached graph, `draw` leaves the viewer as it was and makes, in this order:
the colour and one `GL_TRIANGLES` batch with the three vertices of every pose vertex, in map
order; the colour, the point size and one `GL_POINTS` batch with one vertex at the estimate of
every landmark vertex, in map order; and, if and only if `drawCovariance` is set, for every
pose vertex the nine calls of its ellipse glyph (push, translate to the pose, rotate by the
angle, scale by the axes, the filled disk and the outline circle with their colours, pop), so
that the calls hold one disk per pose vertex when the flag is set and none when it is not. A
vertex that is neither a pose nor a landmark contributes nothing: the calls are those made on
the graph with such vertices removed. -/
theorem draw_passes (fl : ℝ → ℝ) (RAD2DEG : ℝ → ℝ) (vs : VertexIDMap) (flag : Bool)
    (gl : List GLCall) :
    Slam2DViewer.draw fl RAD2DEG ⟨some ⟨vs⟩, flag⟩ gl =
      (⟨some ⟨vs⟩, flag⟩,
       gl ++ [GLCall.glColor4f 0 0.67 1 1, GLCall.glBegin GLenum.GL_TRIANGLES]
        ++ (vs.filterMap (fun it => it.2.toVertexSE2)).flatMap (fun v =>
            [GLCall.glVertex3f (v.estimate.mul drawSE2.p1).1 (v.estimate.mul drawSE2.p1).2 0,
             GLCall.glVertex3f (v.estimate.mul drawSE2.p2).1 (v.estimate.mul drawSE2.p2).2 0,
             GLCall.glVertex3f (v.estimate.mul drawSE2.p3).1 (v.estimate.mul drawSE2.p3).2 0])
        ++ [GLCall.glEnd, GLCall.glColor4f 1 0.67 0 1, GLCall.glPointSize 2,
            GLCall.glBegin GLenum.GL_POINTS]
        ++ (vs.filterMap (fun it => it.2.toVertexPointXY)).map
            (fun v => GLCall.glVertex3f v.estimate.1 v.estimate.2 0)
        ++ [GLCall.glEnd, GLCall.glPointSize 1]
        ++ (if flag then (vs.filterMap (fun it => it.2.toVertexSE2)).flatMap (fun v =>
            [GLCall.glPushMatrix, GLCall.glTranslatef v.estimate.x v.estimate.y 0,
             GLCall.glRotatef (RAD2DEG (drawCov.theta fl (v.uncertainty 0 0)
               (v.uncertainty 0 1) (v.uncertainty 1 1))) 0 0 1,
             GLCall.glScalef
               ((drawCov.majorAxis fl (v.uncertainty 0 0) (v.uncertainty 0 1)
                 (v.uncertainty 1 1)).map (fun m => fl (m * 1)))
               ((drawCov.minorAxis fl (v.uncertainty 0 0) (v.uncertainty 0 1)
                 (v.uncertainty 1 1)).map (fun m => fl (m * 1)))
               (some 1),
             GLCall.glColor4f 1 1 0 0.4, GLCall.drawDisk 1, GLCall.glColor4f 0 0 0 1,
             GLCall.drawCircle 1, GLCall.glPopMatrix]) else [])) ∧
    ((Slam2DViewer.draw fl RAD2DEG ⟨some ⟨vs⟩, flag⟩ []).2.countP GLCall.isDrawDisk =
      if flag then (vs.filterMap (fun it => it.2.toVertexSE2)).length else 0) ∧
    (∀ v : VertexSE2, (drawSE2 v []).length = 3) ∧
    (∀ (p : Vector2d) (cov : Matrix (Fin 2) (Fin 2) Double),
      (drawCov fl RAD2DEG p cov []).length = 9) ∧
    (Slam2DViewer.draw fl RAD2DEG ⟨some ⟨vs.filter (fun it => it.2.recognized)⟩, flag⟩ gl).2 =
      (Slam2DViewer.draw fl RAD2DEG ⟨some ⟨vs⟩, flag⟩ gl).2 := by
  have hse : (fun v : VertexSE2 => drawSE2 v []) = fun v =>
      [GLCall.glVertex3f (v.estimate.mul drawSE2.p1).1 (v.estimate.mul drawSE2.p1).2 0,
       GLCall.glVertex3f (v.estimate.mul drawSE2.p2).1 (v.estimate.mul drawSE2.p2).2 0,
       GLCall.glVertex3f (v.estimate.mul drawSE2.p3).1 (v.estimate.mul drawSE2.p3).2 0] :=
    funext drawSE2_nil
  have hcov : (fun v : VertexSE2 =>
      drawCov fl RAD2DEG v.estimate.translation v.uncertainty []) = fun v =>
      [GLCall.glPushMatrix, GLCall.glTranslatef v.estimate.x v.estimate.y 0,
       GLCall.glRotatef (RAD2DEG (drawCov.theta fl (v.uncertainty 0 0)
         (v.uncertainty 0 1) (v.uncertainty 1 1))) 0 0 1,
       GLCall.glScalef
         ((drawCov.majorAxis fl (v.uncertainty 0 0) (v.uncertainty 0 1)
           (v.uncertainty 1 1)).map (fun m => fl (m * 1)))
         ((drawCov.minorAxis fl (v.uncertainty 0 0) (v.uncertainty 0 1)
           (v.uncertainty 1 1)).map (fun m => fl (m * 1)))
         (some 1),
       GLCall.glColor4f 1 1 0 0.4, GLCall.drawDisk 1, GLCall.glColor4f 0 0 0 1,
       GLCall.drawCircle 1, GLCall.glPopMatrix] :=
    funext fun v => drawCov_nil fl RAD2DEG v.estimate.translation v.uncertainty
  refine ⟨?_, ?_, ?_, ?_, ?_⟩
  · refine Prod.ext ?_ ?_
    · simp [Slam2DViewer.draw]
    · rw [draw_calls, hse, hcov]
  · rw [draw_calls, hse, hcov]
    have c1 := countP_flatMap_of_const GLCall.isDrawDisk (fun v : VertexSE2 =>
      [GLCall.glVertex3f (v.estimate.mul drawSE2.p1).1 (v.estimate.mul drawSE2.p1).2 0,
       GLCall.glVertex3f (v.estimate.mul drawSE2.p2).1 (v.estimate.mul drawSE2.p2).2 0,
       GLCall.glVertex3f (v.estimate.mul drawSE2.p3).1 (v.estimate.mul drawSE2.p3).2 0]) 0
      (fun v => by simp [GLCall.isDrawDisk]) (vs.filterMap (fun it => it.2.toVertexSE2))
    have c2 := countP_flatMap_of_const GLCall.isDrawDisk (fun v : VertexSE2 =>
      [GLCall.glPushMatrix, GLCall.glTranslatef v.estimate.x v.estimate.y 0,
       GLCall.glRotatef (RAD2DEG (drawCov.theta fl (v.uncertainty 0 0)
         (v.uncertainty 0 1) (v.uncertainty 1 1))) 0 0 1,
       GLCall.glScalef
         ((drawCov.majorAxis fl (v.uncertainty 0 0) (v.uncertainty 0 1)
           (v.uncertainty 1 1)).map (fun m => fl (m * 1)))
         ((drawCov.minorAxis fl (v.uncertainty 0 0) (v.uncertainty 0 1)
           (v.uncertainty 1 1)).map (fun m => fl (m * 1)))
         (some 1),
       GLCall.glColor4f 1 1 0 0.4, GLCall.drawDisk 1, GLCall.glColor4f 0 0 0 1,
       GLCall.drawCircle 1, GLCall.glPopMatrix]) 1
      (fun v => by simp [GLCall.isDrawDisk]) (vs.filterMap (fun it => it.2.toVertexSE2))
    have c3 : ((vs.filterMap (fun it => it.2.toVertexPointXY)).map
        (fun v => GLCall.glVertex3f v.estimate.1 v.estimate.2 0)).countP GLCall.isDrawDisk
        = 0 := by
      rw [List.countP_eq_zero]
      intro c hc
      obtain ⟨v, -, rfl⟩ := List.mem_map.mp hc
      simp [GLCall.isDrawDisk]
    cases flag
    · simp only [List.countP_append, c1, c3, Bool.false_eq_true, if_false]
      simp [GLCall.isDrawDisk]
    · simp only [List.countP_append, c1, c2, c3, if_true]
      simp [GLCall.isDrawDisk]
  · intro v
    simp [drawSE2]
  · intro p cov
    simp [drawCov]
  · rw [draw_calls, draw_calls, filterMap_toVertexSE2_filter, filterMap_toVertexPointXY_filter]

/-- C8: when no graph is attached (`graph` is null), `draw` makes no call at all (no primitive,
no colour, point size or transform) and leaves the viewer as it was, whatever the value of
`drawCovariance`. -/
theorem draw_null_graph (fl : ℝ → ℝ) (RAD2DEG : ℝ → ℝ) (flag : Bool) (gl : List GLCall) :
    Slam2DViewer.draw fl RAD2DEG ⟨none, flag⟩ gl = (⟨none, flag⟩, gl) := by
  rfl

end g2o
